import Mathlib

/-!
Shallow embedding of the `args-kata-rust` argument parser (`src/lib.rs`)
and proofs about it.

Modelling conventions:
* Rust `String` / `&str` are modelled as `List Char`.
* A Rust panic is modelled by an `Option` around the result (`none` = panic).
* Rust `Result<T, ParseErr>` is modelled as `Except ParseErr T`.
* The `&mut self` setters (`Args::set`) return the post-state explicitly:
  `ArgHolder.set : ArgHolder → List (List Char) → ArgHolder × Except ParseErr Unit`.
* `isize` is modelled as `Int` together with the 64-bit range check that
  `isize::from_str` performs.
-/

namespace ArgsKata

/-- Rust `str::split(sep)` for a one-character pattern: every segment between
occurrences of `sep`, empty segments included; the empty string yields one
empty segment. -/
def splitChar (sep : Char) : List Char → List (List Char)
  | [] => [[]]
  | c :: cs =>
    if c = sep then [] :: splitChar sep cs
    else
      match splitChar sep cs with
      | [] => [[c]]
      | s :: ss => (c :: s) :: ss

/-- Rust `str::trim`: drop whitespace from both ends.  (Rust trims the full
Unicode White_Space set; the claims only exercise ASCII whitespace, which
`Char.isWhitespace` covers identically.) -/
def trimChars (s : List Char) : List Char :=
  ((s.dropWhile Char.isWhitespace).reverse.dropWhile Char.isWhitespace).reverse

/-- Lower bound of `isize` on a 64-bit target. -/
def isizeMin : Int := -(2 ^ 63)

/-- Upper bound of `isize` on a 64-bit target. -/
def isizeMax : Int := 2 ^ 63 - 1

/-- Value of a run of ASCII digits, most significant first. -/
def digitsVal (digits : List Char) : Nat :=
  digits.foldl (fun acc d => acc * 10 + (d.toNat - 48)) 0

/-- The digit run of `isize::from_str` after the optional sign: one or more
ASCII digits, value in the `isize` range. -/
def parseDigits (sign : Int) (digits : List Char) : Option Int :=
  if digits = [] then none
  else if digits.all Char.isDigit then
    if isizeMin ≤ sign * (digitsVal digits : Int) ∧ sign * (digitsVal digits : Int) ≤ isizeMax
    then some (sign * (digitsVal digits : Int)) else none
  else none

/-- Rust `str::parse::<isize>()` (`isize::from_str`): optional leading `+` or
`-`, then one or more ASCII digits, range-checked. -/
def parseIntCore (s : List Char) : Option Int :=
  match s with
  | [] => none
  | c :: rest =>
    if c = '+' then parseDigits 1 rest
    else if c = '-' then parseDigits (-1) rest
    else parseDigits 1 (c :: rest)

/-- Rust `str::parse::<bool>()` (`bool::from_str`): exactly `true` or
`false`, case-sensitive. -/
def parseBoolCore (s : List Char) : Option Bool :=
  if s = ['t', 'r', 'u', 'e'] then some true
  else if s = ['f', 'a', 'l', 's', 'e'] then some false
  else none

/-- Decimal digits of `n`, most significant first (helper for the `Display`
impls of `isize`); structurally recursive on a fuel argument so that it
evaluates in the kernel.  Any fuel of at least the digit count of `n` gives
the digits; `natToString` passes `n + 1`, which always suffices. -/
def natDigitsGo : Nat → Nat → List Char
  | 0, _ => []
  | fuel + 1, n =>
    if n = 0 then [] else natDigitsGo fuel (n / 10) ++ [Char.ofNat (48 + n % 10)]

/-- Rust `Display` of a nonnegative integer. -/
def natToString (n : Nat) : List Char :=
  if n = 0 then ['0'] else natDigitsGo (n + 1) n

/-- Rust `isize as Display` / `ToString::to_string`. -/
def intToString (v : Int) : List Char :=
  if v < 0 then '-' :: natToString (-v).toNat else natToString v.toNat

/-- Rust `str::to_lowercase`, restricted to simple per-character lowering
(`Char.toLower` handles the ASCII range; the only place this is used compares
the result with `"true"`, and the two lowerings agree on that comparison). -/
def toLowerStr (s : List Char) : List Char := s.map Char.toLower

/-- Rust `str::len()`: the UTF-8 byte length of the string. -/
def utf8Len (s : List Char) : Nat := (s.map Char.utf8Size).sum

/-- Rust `[String]::join(",")`. -/
def joinComma : List (List Char) → List Char
  | [] => []
  | [s] => s
  | s :: rest => s ++ ',' :: joinComma rest

deriving instance DecidableEq for Except

/-- `ParseErr` from `src/lib.rs`. -/
inductive ParseErr where
  | InvalidSchema : ParseErr
  | UnsupportedArgType : List Char → ParseErr
  | UnknownArg : List Char → ParseErr
  | NumberFormatErr : List Char → ParseErr
deriving DecidableEq, Repr

/-- The five `Args` implementors (`BoolArg`, `StringArg`, `NumberArg`,
`StrArrayArg`, `NumberArrayArg`), as a closed sum. -/
inductive ArgHolder where
  | boolArg : Bool → ArgHolder
  | stringArg : Option (List Char) → ArgHolder
  | numberArg : Option Int → ArgHolder
  | strArrayArg : List (List Char) → ArgHolder
  | numberArrayArg : List Int → ArgHolder
deriving DecidableEq, Repr

/-- The five `Args::set` implementations.  The first component of the result
is the holder after the call (the embedding of `&mut self`), the second the
returned `Result<(), ParseErr>`. -/
def ArgHolder.set : ArgHolder → List (List Char) → ArgHolder × Except ParseErr Unit
  | .boolArg _, values =>
    if values.isEmpty ∨ toLowerStr values.flatten = ['t', 'r', 'u', 'e'] then
      (.boolArg true, .ok ())
    else (.boolArg false, .ok ())
  | .stringArg _, values => (.stringArg (some values.flatten), .ok ())
  | .numberArg v, values =>
    match parseIntCore values.flatten with
    | some n => (.numberArg (some n), .ok ())
    | none => (.numberArg v, .error (.NumberFormatErr values.flatten))
  | .strArrayArg vs, values => (.strArrayArg (vs ++ values), .ok ())
  | .numberArrayArg vs, values =>
    (.numberArrayArg (vs ++ values.filterMap parseIntCore), .ok ())

/-- The five `Args::get` implementations. -/
def ArgHolder.get : ArgHolder → Option (List Char)
  | .boolArg b => some (if b then ['t', 'r', 'u', 'e'] else ['f', 'a', 'l', 's', 'e'])
  | .stringArg v => v
  | .numberArg v => v.map intToString
  | .strArrayArg vs => some (joinComma vs)
  | .numberArrayArg vs => some (joinComma (vs.map intToString))

/-- Trait-default `Args::as_number`. -/
def ArgHolder.as_number (h : ArgHolder) : Option Int := h.get.bind parseIntCore

/-- Trait-default `Args::as_bool`. -/
def ArgHolder.as_bool (h : ArgHolder) : Option Bool := h.get.bind parseBoolCore

/-- Trait-default `Args::as_str_array`. -/
def ArgHolder.as_str_array (h : ArgHolder) : List (List Char) :=
  match h.get with
  | none => []
  | some v => splitChar ',' v

/-- Trait-default `Args::as_num_array`. -/
def ArgHolder.as_num_array (h : ArgHolder) : List Int :=
  match h.get with
  | none => []
  | some v => (splitChar ',' v).filterMap parseIntCore

/-- `token_to_kv` from `src/lib.rs`.  `token.len()` is the UTF-8 byte length,
and the byte slices `&token[..=0]` and `&token[1..]` panic (modelled `none`)
unless byte index 1 is a character boundary, i.e. unless the first character
of the token occupies a single UTF-8 byte. -/
def token_to_kv (token : List Char) : Option (Except ParseErr (List Char × ArgHolder)) :=
  if utf8Len token = 0 then some (.error .InvalidSchema)
  else if utf8Len token = 1 then some (.ok (token, .boolArg false))
  else
    match token with
    | [] => none
    | c :: rest =>
      if c.utf8Size = 1 then
        some
          (if rest = ['*'] then .ok ([c], .stringArg none)
          else if rest = ['#'] then .ok ([c], .numberArg none)
          else if rest = ['[', '*', ']'] then .ok ([c], .strArrayArg [])
          else if rest = ['[', '#', ']'] then .ok ([c], .numberArrayArg [])
          else .error (.UnsupportedArgType rest))
      else none

/-- `Token` from `src/lib.rs`. -/
structure Token where
  modifier : List Char
  values : List (List Char)
deriving DecidableEq, Repr

/-- The token built from one nonempty `-`-segment: modifier is the segment's
first space-delimited word (`split(' ').nth(0)`; a split always yields at
least one piece, so the `.expect("")` cannot fire and `headD` is exact), the
values are the remaining pieces with empty ones dropped. -/
def mkToken (seg : List Char) : Token :=
  ⟨(splitChar ' ' seg).headD [],
    ((splitChar ' ' seg).drop 1).filter (fun w => !w.isEmpty)⟩

/-- `TokensIterator` from `src/lib.rs`: the raw input plus a cursor counting
how many `-`-segments have been examined. -/
structure TokensIterator where
  input : List Char
  cursor : Nat

/-- The `for` loop inside `TokensIterator::next`: walk the segments after the
cursor, advancing the cursor once per examined segment, and return the first
nonempty one as a token. -/
def nextGo (input : List Char) : List (List Char) → Nat → Option (Token × TokensIterator)
  | [], _ => none
  | seg :: rest, cur =>
    if 0 < seg.length then some (mkToken seg, ⟨input, cur + 1⟩)
    else nextGo input rest (cur + 1)

/-- `TokensIterator::next`: re-split the input on `-`, skip the first
`cursor` segments, and scan for the next nonempty segment. -/
def TokensIterator.next (it : TokensIterator) : Option (Token × TokensIterator) :=
  nextGo it.input ((splitChar '-' it.input).drop it.cursor) it.cursor

/-- Run the iterator to exhaustion (fuel-bounded so that it evaluates; the
segment count bounds the number of tokens, so `tokens` below passes enough
fuel). -/
def materialize : Nat → TokensIterator → List Token
  | 0, _ => []
  | fuel + 1, it =>
    match it.next with
    | none => []
    | some (t, it2) => t :: materialize fuel it2

/-- The full token sequence the iterator yields for an input, i.e. what the
`for token in TokensIterator::from(input)` loop in `parse` consumes. -/
def tokens (input : List Char) : List Token :=
  materialize (splitChar '-' input).length ⟨input, 0⟩

/-- The compiled schema: `HashMap<&str, Box<dyn Args>>`, modelled as an
association list with at most one entry per key. -/
abbrev ArgMap := List (List Char × ArgHolder)

/-- `HashMap::get` / `get_mut` (lookup by key). -/
def lookupKV : ArgMap → List Char → Option ArgHolder
  | [], _ => none
  | (k, v) :: rest, key => if k = key then some v else lookupKV rest key

/-- In-place mutation of the holder stored under a key (the effect of
writing through `get_mut`). -/
def updateKV : ArgMap → List Char → ArgHolder → ArgMap
  | [], _, _ => []
  | (k, v) :: rest, key, nv =>
    if k = key then (k, nv) :: rest else (k, v) :: updateKV rest key nv

/-- `HashMap::insert`: replace the value under an existing key, otherwise add
a fresh entry. -/
def insertKV (m : ArgMap) (k : List Char) (v : ArgHolder) : ArgMap :=
  if (lookupKV m k).isSome then updateKV m k v else m ++ [(k, v)]

/-- `schema.split(',').map(str::trim).map(token_to_kv).collect::<Result<HashMap, _>>()`:
short-circuits at the first erroneous token, inserting the pairs in order
otherwise. -/
def collectSchema : List (List Char) → ArgMap → Option (Except ParseErr ArgMap)
  | [], acc => some (.ok acc)
  | t :: ts, acc =>
    match token_to_kv t with
    | none => none
    | some (.error e) => some (.error e)
    | some (.ok (k, v)) => collectSchema ts (insertKV acc k v)

/-- The schema-compilation phase of `parse`. -/
def compileSchema (schema : List Char) : Option (Except ParseErr ArgMap) :=
  collectSchema ((splitChar ',' schema).map trimChars) []

/-- The binding loop of `parse`: for each token, look the modifier up
(`UnknownArg` if absent), feed the values to the holder, and stop at the
first error. -/
def bindTokens : ArgMap → List Token → Except ParseErr ArgMap
  | m, [] => .ok m
  | m, t :: ts =>
    match lookupKV m t.modifier with
    | none => .error (.UnknownArg t.modifier)
    | some arg =>
      match arg.set t.values with
      | (_, .error e) => .error e
      | (h2, .ok _) => bindTokens (updateKV m t.modifier h2) ts

/-- `parse` from `src/lib.rs`: compile the schema, then bind every token of
the input.  `none` models a panic inside schema compilation. -/
def parse (schema input : List Char) : Option (Except ParseErr ArgMap) :=
  match compileSchema schema with
  | none => none
  | some (.error e) => some (.error e)
  | some (.ok m) => some (bindTokens m (tokens input))

/-- Does a word begin with `-`? (used only by the spec-side tokenizer). -/
def startsWithDash : List Char → Bool
  | '-' :: _ => true
  | _ => false

/-- Spec-side grouping of whitespace-separated words, fuel-bounded (the word
count bounds the group count).  See `specTokenize`. -/
def specGroup : Nat → List (List Char) → List Token
  | 0, _ => []
  | _, [] => []
  | fuel + 1, w :: ws =>
    if startsWithDash w then
      ⟨(w.drop 1).take 1, ws.takeWhile (fun u => !startsWithDash u)⟩ ::
        specGroup fuel (ws.dropWhile (fun u => !startsWithDash u))
    else specGroup fuel ws

/-- Modelled from the spec: the §6 "input mini-language" tokenizer, for a
refinement comparison with the code's `tokens`.  The input is a sequence of
whitespace-separated words; a word beginning with `-` starts a flag segment
whose modifier is the first character following the `-` and whose values are
the subsequent words up to (not including) the next `-`-prefixed word. -/
def specTokenize (input : List Char) : List Token :=
  specGroup ((splitChar ' ' input).filter (fun w => !w.isEmpty)).length
    ((splitChar ' ' input).filter (fun w => !w.isEmpty))

/-- The holder a freshly compiled schema entry carries (every variant at its
default). -/
def isDefaultHolder : ArgHolder → Prop
  | .boolArg b => b = false
  | .stringArg v => v = none
  | .numberArg v => v = none
  | .strArrayArg vs => vs = []
  | .numberArrayArg vs => vs = []

/-- Every numeric value stored in the holder is nonnegative. -/
def nonnegHolder : ArgHolder → Prop
  | .numberArg v => ∀ n, v = some n → 0 ≤ n
  | .numberArrayArg vs => ∀ n ∈ vs, 0 ≤ n
  | _ => True

/-! ## Lemmas about `splitChar` -/

theorem splitChar_ne_nil (sep : Char) (s : List Char) : splitChar sep s ≠ [] := by
  cases s with
  | nil => simp [splitChar]
  | cons c cs =>
    simp only [splitChar]
    split
    · simp
    · split <;> simp

theorem not_mem_of_mem_splitChar {sep : Char} :
    ∀ {s piece : List Char}, piece ∈ splitChar sep s → sep ∉ piece := by
  intro s
  induction s with
  | nil =>
    intro piece h
    simp [splitChar] at h
    simp [h]
  | cons c cs ih =>
    intro piece h
    simp only [splitChar] at h
    by_cases hc : c = sep
    · rw [if_pos hc] at h
      rcases List.mem_cons.mp h with h1 | h1
      · simp [h1]
      · exact ih h1
    · rw [if_neg hc] at h
      rcases hrec : splitChar sep cs with _ | ⟨s0, ss⟩
      · exact absurd hrec (splitChar_ne_nil sep cs)
      · rw [hrec] at h
        rcases List.mem_cons.mp h with h1 | h1
        · subst h1
          intro hmem
          rcases List.mem_cons.mp hmem with h2 | h2
          · exact hc h2.symm
          · exact ih (by rw [hrec]; exact List.mem_cons_self s0 ss) h2
        · exact ih (by rw [hrec]; exact List.mem_cons_of_mem s0 h1)

theorem mem_of_mem_splitChar {sep : Char} :
    ∀ {s piece : List Char} {c : Char}, piece ∈ splitChar sep s → c ∈ piece → c ∈ s := by
  intro s
  induction s with
  | nil =>
    intro piece c h hc
    simp [splitChar] at h
    subst h
    simp at hc
  | cons c0 cs ih =>
    intro piece c h hc
    simp only [splitChar] at h
    by_cases hc0 : c0 = sep
    · rw [if_pos hc0] at h
      rcases List.mem_cons.mp h with h1 | h1
      · subst h1; simp at hc
      · exact List.mem_cons_of_mem c0 (ih h1 hc)
    · rw [if_neg hc0] at h
      rcases hrec : splitChar sep cs with _ | ⟨s0, ss⟩
      · exact absurd hrec (splitChar_ne_nil sep cs)
      · rw [hrec] at h
        rcases List.mem_cons.mp h with h1 | h1
        · subst h1
          rcases List.mem_cons.mp hc with h2 | h2
          · exact h2 ▸ List.mem_cons_self c0 cs
          · exact List.mem_cons_of_mem c0
              (ih (by rw [hrec]; exact List.mem_cons_self s0 ss) h2)
        · exact List.mem_cons_of_mem c0
            (ih (by rw [hrec]; exact List.mem_cons_of_mem s0 h1) hc)

theorem splitChar_length (sep : Char) : ∀ s : List Char,
    (splitChar sep s).length = s.count sep + 1 := by
  intro s
  induction s with
  | nil => simp [splitChar]
  | cons c cs ih =>
    simp only [splitChar]
    by_cases hc : c = sep
    · rw [if_pos hc]
      simp [List.count_cons, hc, ih]
    · rw [if_neg hc]
      rcases hrec : splitChar sep cs with _ | ⟨s0, ss⟩
      · exact absurd hrec (splitChar_ne_nil sep cs)
      · rw [hrec] at ih
        simp only [List.length_cons] at ih ⊢
        have hcount : (c :: cs).count sep = cs.count sep := by
          simp [List.count_cons, hc]
        omega

theorem splitChar_of_not_mem {sep : Char} :
    ∀ {s : List Char}, sep ∉ s → splitChar sep s = [s] := by
  intro s
  induction s with
  | nil => intro _; rfl
  | cons c cs ih =>
    intro h
    have hc : ¬c = sep := fun he => h (by simp [he])
    have hcs : sep ∉ cs := fun he => h (List.mem_cons_of_mem c he)
    simp only [splitChar, if_neg hc, ih hcs]

theorem splitChar_append {sep : Char} :
    ∀ {a : List Char} (b : List Char), sep ∉ a →
      splitChar sep (a ++ sep :: b) = a :: splitChar sep b := by
  intro a
  induction a with
  | nil =>
    intro b _
    simp [splitChar]
  | cons c a2 ih =>
    intro b h
    have hc : ¬c = sep := fun he => h (by simp [he])
    have ha2 : sep ∉ a2 := fun he => h (List.mem_cons_of_mem c he)
    simp only [List.cons_append, splitChar, if_neg hc]
    rw [show a2.append (sep :: b) = a2 ++ sep :: b from rfl, ih b ha2]

/-! ## Lemmas about `joinComma` -/

theorem joinComma_count : ∀ vs : List (List Char), vs ≠ [] →
    (joinComma vs).count ',' = (vs.length - 1) + (vs.map (fun s => s.count ',')).sum := by
  intro vs
  induction vs with
  | nil => intro h; exact absurd rfl h
  | cons s rest ih =>
    intro _
    cases rest with
    | nil => simp [joinComma]
    | cons s2 rest2 =>
      have hne : s2 :: rest2 ≠ [] := by simp
      have hstep : joinComma (s :: s2 :: rest2) = s ++ ',' :: joinComma (s2 :: rest2) := rfl
      rw [hstep, List.count_append, List.count_cons, ih hne]
      simp only [List.length_cons, List.map_cons, List.sum_cons, beq_self_eq_true, if_true]
      omega

theorem splitChar_joinComma : ∀ vs : List (List Char), vs ≠ [] →
    (∀ s ∈ vs, ',' ∉ s) → splitChar ',' (joinComma vs) = vs := by
  intro vs
  induction vs with
  | nil => intro h; exact absurd rfl h
  | cons s rest ih =>
    intro _ hmem
    cases rest with
    | nil => exact splitChar_of_not_mem (hmem s (List.mem_cons_self s []))
    | cons s2 rest2 =>
      have hs : ',' ∉ s := hmem s (List.mem_cons_self s (s2 :: rest2))
      simp only [joinComma, splitChar_append (joinComma (s2 :: rest2)) hs]
      rw [ih (by simp) (fun x hx => hmem x (List.mem_cons_of_mem s hx))]

/-! ## Lemmas about number parsing -/

theorem parseDigits_one_nonneg {ds : List Char} {n : Int}
    (h : parseDigits 1 ds = some n) : 0 ≤ n := by
  unfold parseDigits at h
  split at h
  · exact absurd h (by simp)
  · split at h
    · split at h
      · have hn := Option.some.inj h
        have hpos : (0 : Int) ≤ (digitsVal ds : Int) := Int.natCast_nonneg _
        omega
      · exact absurd h (by simp)
    · exact absurd h (by simp)

theorem parseIntCore_nonneg {s : List Char} {n : Int}
    (hdash : '-' ∉ s) (h : parseIntCore s = some n) : 0 ≤ n := by
  cases s with
  | nil => exact absurd h (by simp [parseIntCore])
  | cons c rest =>
    simp only [parseIntCore] at h
    split at h
    · exact parseDigits_one_nonneg h
    · split at h
      · rename_i hplus hminus
        exact absurd (hminus ▸ List.mem_cons_self c rest) hdash
      · exact parseDigits_one_nonneg h

theorem not_mem_flatten {c : Char} {l : List (List Char)}
    (h : ∀ x ∈ l, c ∉ x) : c ∉ l.flatten := by
  intro hmem
  rcases List.mem_flatten.mp hmem with ⟨x, hx, hc⟩
  exact h x hx hc

/-! ## Lemmas about the holder map -/

theorem lookupKV_mem : ∀ {m : ArgMap} {key : List Char} {v : ArgHolder},
    lookupKV m key = some v → (key, v) ∈ m := by
  intro m
  induction m with
  | nil => intro key v h; exact absurd h (by simp [lookupKV])
  | cons kv rest ih =>
    intro key v h
    rcases kv with ⟨k, w⟩
    simp only [lookupKV] at h
    split at h
    · rename_i hk
      have hv := Option.some.inj h
      subst hv
      subst hk
      exact List.mem_cons_self _ _
    · exact List.mem_cons_of_mem _ (ih h)

theorem updateKV_mem : ∀ {m : ArgMap} {key : List Char} {nv : ArgHolder}
    {k : List Char} {h : ArgHolder},
    (k, h) ∈ updateKV m key nv → h = nv ∨ (k, h) ∈ m := by
  intro m
  induction m with
  | nil => intro key nv k h hm; simp [updateKV] at hm
  | cons kv rest ih =>
    intro key nv k h hm
    rcases kv with ⟨k0, w⟩
    simp only [updateKV] at hm
    split at hm
    · rcases List.mem_cons.mp hm with h1 | h1
      · exact Or.inl (congrArg Prod.snd h1)
      · exact Or.inr (List.mem_cons_of_mem _ h1)
    · rcases List.mem_cons.mp hm with h1 | h1
      · exact Or.inr (h1 ▸ List.mem_cons_self _ _)
      · rcases ih h1 with h2 | h2
        · exact Or.inl h2
        · exact Or.inr (List.mem_cons_of_mem _ h2)

theorem insertKV_mem {m : ArgMap} {key : List Char} {nv : ArgHolder}
    {k : List Char} {h : ArgHolder}
    (hmem : (k, h) ∈ insertKV m key nv) : h = nv ∨ (k, h) ∈ m := by
  unfold insertKV at hmem
  split at hmem
  · exact updateKV_mem hmem
  · rcases List.mem_append.mp hmem with h1 | h1
    · exact Or.inr h1
    · simp at h1
      exact Or.inl h1.2

/-! ## Lemmas about schema compilation -/

theorem char_utf8Size_pos (c : Char) : 0 < c.utf8Size := Char.utf8Size_pos c

theorem utf8Len_cons (c : Char) (rest : List Char) :
    utf8Len (c :: rest) = c.utf8Size + utf8Len rest := by
  simp [utf8Len]

theorem utf8Len_pos_of_ne_nil {s : List Char} (h : s ≠ []) : 0 < utf8Len s := by
  cases s with
  | nil => exact absurd rfl h
  | cons c rest =>
    rw [utf8Len_cons]
    have := char_utf8Size_pos c
    omega

theorem token_to_kv_ok_default {t k : List Char} {h : ArgHolder}
    (ht : token_to_kv t = some (.ok (k, h))) : isDefaultHolder h := by
  unfold token_to_kv at ht
  split at ht
  · exact absurd (Option.some.inj ht) (by simp)
  · split at ht
    · have := Option.some.inj ht
      have hh : h = .boolArg false := by
        cases this
        rfl
      rw [hh]
      rfl
    · split at ht
      · exact absurd ht (by simp)
      · split at ht
        · have := Option.some.inj ht
          split at this <;> [skip; split at this] <;> [skip; skip; split at this] <;>
            [skip; skip; skip; split at this] <;> first
          | · cases this
              rfl
          | · exact absurd this (by simp)
        · exact absurd ht (by simp)

theorem collectSchema_holders (P : ArgHolder → Prop)
    (hP : ∀ t k h, token_to_kv t = some (.ok (k, h)) → P h) :
    ∀ (ts : List (List Char)) (acc m : ArgMap),
      (∀ k h, (k, h) ∈ acc → P h) → collectSchema ts acc = some (.ok m) →
      ∀ k h, (k, h) ∈ m → P h := by
  intro ts
  induction ts with
  | nil =>
    intro acc m hacc hc
    simp only [collectSchema] at hc
    have : acc = m := by
      have := Option.some.inj hc
      cases this
      rfl
    exact this ▸ hacc
  | cons t ts ih =>
    intro acc m hacc hc
    simp only [collectSchema] at hc
    rcases htk : token_to_kv t with _ | r
    · rw [htk] at hc; exact absurd hc (by simp)
    · rw [htk] at hc
      cases r with
      | error e => exact absurd (Option.some.inj hc) (by simp)
      | ok kv =>
        rcases kv with ⟨k0, v0⟩
        refine ih (insertKV acc k0 v0) m ?_ hc
        intro k h hk
        rcases insertKV_mem hk with h1 | h1
        · exact h1 ▸ hP t k0 v0 htk
        · exact hacc k h h1

theorem compileSchema_holders (P : ArgHolder → Prop)
    (hP : ∀ t k h, token_to_kv t = some (.ok (k, h)) → P h)
    {schema : List Char} {m : ArgMap}
    (hc : compileSchema schema = some (.ok m)) :
    ∀ k h, (k, h) ∈ m → P h :=
  collectSchema_holders P hP _ [] m (by simp) hc

/-! ## The iterator materializes to the segment-wise token list -/

theorem materialize_eq (input : List Char) :
    ∀ (rest : List (List Char)) (cur fuel : Nat),
      (splitChar '-' input).drop cur = rest → rest.length ≤ fuel →
      materialize fuel ⟨input, cur⟩ =
        (rest.filter (fun s => !s.isEmpty)).map mkToken := by
  intro rest
  induction rest with
  | nil =>
    intro cur fuel hdrop _
    have hnext : TokensIterator.next ⟨input, cur⟩ = none := by
      simp only [TokensIterator.next]
      rw [hdrop]
      rfl
    cases fuel with
    | zero => rfl
    | succ f => simp [materialize, hnext]
  | cons seg rest ih =>
    intro cur fuel hdrop hfuel
    have hdrop1 : (splitChar '-' input).drop (cur + 1) = rest := by
      rw [← List.tail_drop, hdrop]
      rfl
    cases fuel with
    | zero => simp at hfuel
    | succ f =>
      by_cases hseg : 0 < seg.length
      · have hnext : TokensIterator.next ⟨input, cur⟩ =
            some (mkToken seg, ⟨input, cur + 1⟩) := by
          simp only [TokensIterator.next]
          rw [hdrop]
          simp [nextGo, hseg]
        simp only [materialize, hnext]
        rw [ih (cur + 1) f hdrop1 (by simp at hfuel; omega)]
        have hne : (!seg.isEmpty) = true := by
          cases seg with
          | nil => simp at hseg
          | cons a l => simp
        simp [List.filter_cons, hne]
      · have hseg0 : seg = [] := by
          cases seg with
          | nil => rfl
          | cons a l => simp at hseg
        subst hseg0
        have hnext : TokensIterator.next ⟨input, cur⟩ =
            TokensIterator.next ⟨input, cur + 1⟩ := by
          simp only [TokensIterator.next]
          rw [hdrop, hdrop1]
          rfl
        have hmat : materialize (f + 1) ⟨input, cur⟩ =
            materialize (f + 1) ⟨input, cur + 1⟩ := by
          simp only [materialize, hnext]
        rw [hmat, ih (cur + 1) (f + 1) hdrop1 (by simp at hfuel; omega)]
        simp

theorem tokens_eq (input : List Char) :
    tokens input =
      ((splitChar '-' input).filter (fun s => !s.isEmpty)).map mkToken :=
  materialize_eq input (splitChar '-' input) 0 _ (by simp) (le_refl _)

/-! ## Tokens contain no dash -/

theorem headD_mem_splitChar (sep : Char) (seg : List Char) :
    (splitChar sep seg).headD [] ∈ splitChar sep seg := by
  rcases hsp : splitChar sep seg with _ | ⟨p, ps⟩
  · exact absurd hsp (splitChar_ne_nil sep seg)
  · simp

theorem tokens_dashfree {input : List Char} {t : Token} (ht : t ∈ tokens input) :
    '-' ∉ t.modifier ∧ ∀ v ∈ t.values, '-' ∉ v := by
  rw [tokens_eq] at ht
  rcases List.mem_map.mp ht with ⟨seg, hseg, rfl⟩
  have hsegmem : seg ∈ splitChar '-' input := List.mem_of_mem_filter hseg
  have hsegdash : '-' ∉ seg := not_mem_of_mem_splitChar hsegmem
  constructor
  · intro hc
    exact hsegdash (mem_of_mem_splitChar (headD_mem_splitChar ' ' seg) hc)
  · intro v hv hc
    simp only [mkToken] at hv
    have hv2 : v ∈ (splitChar ' ' seg).drop 1 := List.mem_of_mem_filter hv
    have hv3 : v ∈ splitChar ' ' seg := List.mem_of_mem_drop hv2
    exact hsegdash (mem_of_mem_splitChar hv3 hc)

/-! ## `set` preserves nonnegativity when the values carry no dash -/

theorem set_preserves_nonneg {h : ArgHolder} {vals : List (List Char)}
    (hv : ∀ v ∈ vals, '-' ∉ v) (hn : nonnegHolder h) :
    nonnegHolder (h.set vals).1 := by
  cases h with
  | boolArg b =>
    simp only [ArgHolder.set]
    split <;> trivial
  | stringArg v => trivial
  | numberArg v =>
    simp only [ArgHolder.set]
    rcases hp : parseIntCore vals.flatten with _ | n
    · exact hn
    · intro n2 hn2
      have : n = n2 := by
        simpa using hn2
      exact this ▸ parseIntCore_nonneg (not_mem_flatten hv) hp
  | strArrayArg vs => trivial
  | numberArrayArg vs =>
    simp only [ArgHolder.set]
    intro n hn2
    rcases List.mem_append.mp hn2 with h1 | h1
    · exact hn n h1
    · rcases List.mem_filterMap.mp h1 with ⟨x, hx, hpx⟩
      exact parseIntCore_nonneg (hv x hx) hpx

/-! ## The binding loop preserves nonnegativity -/

theorem bindTokens_nonneg : ∀ (ts : List Token) (m m2 : ArgMap),
    (∀ t ∈ ts, ∀ v ∈ t.values, '-' ∉ v) →
    (∀ k h, (k, h) ∈ m → nonnegHolder h) →
    bindTokens m ts = .ok m2 → ∀ k h, (k, h) ∈ m2 → nonnegHolder h := by
  intro ts
  induction ts with
  | nil =>
    intro m m2 _ hm hb
    have : m = m2 := by
      simpa [bindTokens] using hb
    exact this ▸ hm
  | cons t ts ih =>
    intro m m2 hts hm hb
    simp only [bindTokens] at hb
    rcases hl : lookupKV m t.modifier with _ | arg
    · simp only [hl] at hb
      exact absurd hb (by simp)
    · simp only [hl] at hb
      rcases hs : arg.set t.values with ⟨h2, r⟩
      rw [hs] at hb
      cases r with
      | error e => simp at hb
      | ok u =>
        refine ih (updateKV m t.modifier h2) m2
          (fun t2 ht2 => hts t2 (List.mem_cons_of_mem t ht2)) ?_ hb
        intro k h hk
        rcases updateKV_mem hk with h1 | h1
        · have harg : nonnegHolder arg := hm _ _ (lookupKV_mem hl)
          have := set_preserves_nonneg (hts t (List.mem_cons_self t ts)) harg
          rw [hs] at this
          exact h1 ▸ this
        · exact hm k h h1

/-! ## Claims -/

/-- C5: for every input string, `parse` with the empty schema fails with
`InvalidSchema`: the empty schema splits on `,` into a single empty token,
which `token_to_kv` rejects before any input token is processed. -/
theorem claim_C5 : ∀ input : List Char, parse [] input = some (.error .InvalidSchema) :=
  fun _ => rfl

/-- C6: a `Number` holder fed values whose concatenation does not parse as a
signed integer fails with `NumberFormatErr` on the joined text and keeps its
previously stored value; the binding loop propagates that error at once,
ignoring all later tokens, and `parse` returns no mapping (matching the
repo's own test `parse("p#", "-p foo")`). -/
theorem claim_C6 :
    (∀ (v : Option Int) (vals : List (List Char)),
      parseIntCore vals.flatten = none →
      ArgHolder.set (.numberArg v) vals =
        (.numberArg v, .error (.NumberFormatErr vals.flatten)))
    ∧ (∀ (m : ArgMap) (t : Token) (ts : List Token) (v : Option Int),
      lookupKV m t.modifier = some (.numberArg v) →
      parseIntCore t.values.flatten = none →
      bindTokens m (t :: ts) = .error (.NumberFormatErr t.values.flatten))
    ∧ parse "p#".toList "-p foo".toList =
        some (.error (.NumberFormatErr "foo".toList)) := by
  refine ⟨?_, ?_, by decide⟩
  · intro v vals h
    simp [ArgHolder.set, h]
  · intro m t ts v hl h
    simp [bindTokens, hl, ArgHolder.set, h]

/-- Witness for C6 at concrete inputs. -/
theorem claim_C6_witness :
    parseIntCore ["x".toList].flatten = none
    ∧ ArgHolder.set (.numberArg (some 3)) ["x".toList] =
        (.numberArg (some 3), .error (.NumberFormatErr "x".toList))
    ∧ bindTokens [("p".toList, .numberArg none)]
        [⟨"p".toList, ["x".toList]⟩, ⟨"q".toList, []⟩] =
        .error (.NumberFormatErr "x".toList) :=
  ⟨by decide, claim_C6.1 (some 3) ["x".toList] (by decide),
    claim_C6.2.1 [("p".toList, .numberArg none)] ⟨"p".toList, ["x".toList]⟩
      [⟨"q".toList, []⟩] none (by decide) (by decide)⟩

/-- C7: scalar holders (Boolean, String, Number) overwrite on re-binding —
the value after two `set` calls is whatever the second call alone would have
produced — while array holders append across bindings; at the `parse` level,
`-d a -d b` leaves `b` bound and `-s a -s b` accumulates `[a, b]`. -/
theorem claim_C7 :
    (∀ (b : Bool) (vs1 vs2 : List (List Char)),
      (((ArgHolder.boolArg b).set vs1).1).set vs2 = (ArgHolder.boolArg b).set vs2)
    ∧ (∀ (v : Option (List Char)) (vs1 vs2 : List (List Char)),
      (((ArgHolder.stringArg v).set vs1).1).set vs2 = (ArgHolder.stringArg v).set vs2)
    ∧ (∀ (v : Option Int) (vs1 vs2 : List (List Char)) (n : Int),
      parseIntCore vs2.flatten = some n →
      (((ArgHolder.numberArg v).set vs1).1).set vs2 = (ArgHolder.numberArg v).set vs2)
    ∧ (∀ (xs vs1 : List (List Char)),
      ((ArgHolder.strArrayArg xs).set vs1).1 = ArgHolder.strArrayArg (xs ++ vs1))
    ∧ (∀ (xs : List Int) (vs1 : List (List Char)),
      ((ArgHolder.numberArrayArg xs).set vs1).1 =
        ArgHolder.numberArrayArg (xs ++ vs1.filterMap parseIntCore))
    ∧ parse "d*".toList "-d a -d b".toList =
        some (.ok [("d".toList, .stringArg (some "b".toList))])
    ∧ parse "s[*]".toList "-s a -s b".toList =
        some (.ok [("s".toList, .strArrayArg ["a".toList, "b".toList])]) := by
  refine ⟨?_, fun v vs1 vs2 => rfl, ?_, fun xs vs1 => rfl, fun xs vs1 => rfl,
    by decide, by decide⟩
  · intro b vs1 vs2
    obtain ⟨c, hc⟩ : ∃ c, ((ArgHolder.boolArg b).set vs1).1 = ArgHolder.boolArg c := by
      simp only [ArgHolder.set]
      split
      · exact ⟨true, rfl⟩
      · exact ⟨false, rfl⟩
    rw [hc]
    rfl
  · intro v vs1 vs2 n h
    rcases hp : parseIntCore vs1.flatten with _ | n1 <;>
      simp [ArgHolder.set, hp, h]

/-- Witness for C7 at concrete inputs. -/
theorem claim_C7_witness :
    parseIntCore ["7".toList].flatten = some 7
    ∧ (((ArgHolder.numberArg none).set ["1".toList]).1).set ["7".toList] =
        (ArgHolder.numberArg none).set ["7".toList] :=
  ⟨by decide, claim_C7.2.2.1 none ["1".toList] ["7".toList] 7 (by decide)⟩

/-- C8: a `Number-Array` holder parses each value independently, silently
dropping the unparsable ones and appending the parsed ones in order, and
never fails; `parse("p[#]", "-p 1 2 x 4")` succeeds and `as_num_array`
yields `[1, 2, 4]`. -/
theorem claim_C8 :
    (∀ (xs : List Int) (vals : List (List Char)),
      (ArgHolder.numberArrayArg xs).set vals =
        (.numberArrayArg (xs ++ vals.filterMap parseIntCore), .ok ()))
    ∧ parse "p[#]".toList "-p 1 2 x 4".toList =
        some (.ok [("p".toList, .numberArrayArg [1, 2, 4])])
    ∧ (ArgHolder.numberArrayArg [1, 2, 4]).as_num_array = [1, 2, 4] :=
  ⟨fun _ _ => rfl, by decide, by decide⟩

/-- C10: `as_str_array` on a `String-Array` holder is the comma-join of the
stored elements split again on `,`; the round trip returns the stored
sequence exactly when the sequence is nonempty and comma-free, an empty
holder reads back as `[""]`, and a stored comma inflates the length. -/
theorem claim_C10 :
    (∀ vs : List (List Char),
      (ArgHolder.strArrayArg vs).as_str_array = splitChar ',' (joinComma vs))
    ∧ (∀ vs : List (List Char),
      (ArgHolder.strArrayArg vs).as_str_array = vs ↔ vs ≠ [] ∧ ∀ s ∈ vs, ',' ∉ s)
    ∧ (ArgHolder.strArrayArg ([] : List (List Char))).as_str_array = [[]]
    ∧ (∀ vs : List (List Char), vs ≠ [] →
      ((ArgHolder.strArrayArg vs).as_str_array).length =
        vs.length + (vs.map (fun s => s.count ',')).sum) := by
  have hlen : ∀ vs : List (List Char), vs ≠ [] →
      ((ArgHolder.strArrayArg vs).as_str_array).length =
        vs.length + (vs.map (fun s => s.count ',')).sum := by
    intro vs hne
    show (splitChar ',' (joinComma vs)).length = _
    rw [splitChar_length, joinComma_count vs hne]
    have h1 : 0 < vs.length := List.length_pos.mpr hne
    omega
  refine ⟨fun _ => rfl, ?_, by decide, hlen⟩
  intro vs
  constructor
  · intro heq
    have hne : vs ≠ [] := by
      intro hnil
      subst hnil
      exact absurd heq (by decide)
    refine ⟨hne, ?_⟩
    intro s hs hc
    have h1 := hlen vs hne
    rw [heq] at h1
    have h2 : 0 < s.count ',' := List.count_pos_iff.mpr hc
    have h3 : s.count ',' ≤ (vs.map (fun s => s.count ',')).sum :=
      List.single_le_sum (fun x _ => Nat.zero_le x) _ (List.mem_map_of_mem _ hs)
    omega
  · rintro ⟨hne, hmem⟩
    show splitChar ',' (joinComma vs) = vs
    exact splitChar_joinComma vs hne hmem

/-- Witness for C10 at concrete inputs. -/
theorem claim_C10_witness :
    (["ab".toList, "c,d".toList] : List (List Char)) ≠ []
    ∧ ((ArgHolder.strArrayArg ["ab".toList, "c,d".toList]).as_str_array).length =
        (["ab".toList, "c,d".toList] : List (List Char)).length +
          ((["ab".toList, "c,d".toList] : List (List Char)).map
            (fun s => s.count ',')).sum :=
  ⟨by decide, claim_C10.2.2.2 ["ab".toList, "c,d".toList] (by decide)⟩


/-- C1 as stated fails: the code splits the raw input on every `-`
character, and a token's modifier is the segment's whole first word, not its
first character.  `"-dir"` tokenizes to modifier `"dir"` (the spec-side
mini-language gives `"d"`), and `"-p a-b"` is split inside the word `a-b`
(the mini-language keeps `a-b` as one value). -/
theorem claim_C1_counterexample :
    tokens "-dir".toList = [⟨"dir".toList, []⟩]
    ∧ specTokenize "-dir".toList = [⟨"d".toList, []⟩]
    ∧ tokens "-dir".toList ≠ specTokenize "-dir".toList
    ∧ tokens "-p a-b".toList = [⟨"p".toList, ["a".toList]⟩, ⟨"b".toList, []⟩]
    ∧ specTokenize "-p a-b".toList = [⟨"p".toList, ["a-b".toList]⟩]
    ∧ tokens "-p a-b".toList ≠ specTokenize "-p a-b".toList :=
  ⟨by decide, by decide, by decide, by decide, by decide, by decide⟩

/-- C1 (amended): the tokenizer splits the input on every `-` character
(also inside words); each nonempty segment yields one token whose modifier
is the segment's entire first space-delimited word and whose values are the
remaining nonempty space-delimited words of that segment. -/
theorem claim_C1 :
    (∀ input : List Char,
      tokens input = ((splitChar '-' input).filter (fun s => !s.isEmpty)).map mkToken)
    ∧ (∀ seg : List Char,
      mkToken seg = ⟨(splitChar ' ' seg).headD [],
        ((splitChar ' ' seg).drop 1).filter (fun w => !w.isEmpty)⟩) :=
  ⟨tokens_eq, fun _ => rfl⟩

/-- C2 as stated fails for `String-Array` holders: on the empty input the
holder stays empty, but `as_str_array` reads back `[""]` (a one-element
sequence), not the empty sequence, because `get` joins to `""` and the
re-split of `""` on `,` yields one empty piece. -/
theorem claim_C2_counterexample :
    parse "s[*]".toList [] = some (.ok [("s".toList, .strArrayArg [])])
    ∧ (ArgHolder.strArrayArg []).as_str_array = [[]]
    ∧ (ArgHolder.strArrayArg []).as_str_array ≠ ([] : List (List Char)) :=
  ⟨by decide, by decide, by decide⟩

/-- C2 (amended): for every schema that compiles, `parse(schema, "")`
succeeds and returns the compiled mapping unchanged, every holder in it at
its default; the default reads are `as_bool = some false` for Boolean,
`get = none` and `as_number = none` for String and Number,
`as_num_array = []` for Number-Array — but the default String-Array holder
reads back `get = some ""` and `as_str_array = [""]`, not the empty
sequence. -/
theorem claim_C2 :
    (∀ (schema : List Char) (m : ArgMap),
      compileSchema schema = some (.ok m) →
      parse schema [] = some (.ok m) ∧ ∀ kv ∈ m, isDefaultHolder kv.2)
    ∧ (ArgHolder.boolArg false).as_bool = some false
    ∧ (ArgHolder.stringArg none).get = none
    ∧ (ArgHolder.stringArg none).as_number = none
    ∧ (ArgHolder.numberArg none).get = none
    ∧ (ArgHolder.numberArg none).as_number = none
    ∧ (ArgHolder.strArrayArg []).get = some []
    ∧ (ArgHolder.strArrayArg []).as_str_array = [[]]
    ∧ (ArgHolder.numberArrayArg []).as_num_array = [] := by
  refine ⟨?_, by decide, by decide, by decide, by decide, by decide, by decide,
    by decide, by decide⟩
  intro schema m hc
  constructor
  · unfold parse
    rw [hc]
    rfl
  · intro kv hkv
    exact compileSchema_holders isDefaultHolder
      (fun t k h ht => token_to_kv_ok_default ht) hc kv.1 kv.2 hkv

/-- Witness for C2 at a concrete five-flag schema. -/
theorem claim_C2_witness :
    compileSchema "l,d*,p#,s[*],n[#]".toList = some (.ok
      [("l".toList, .boolArg false), ("d".toList, .stringArg none),
        ("p".toList, .numberArg none), ("s".toList, .strArrayArg []),
        ("n".toList, .numberArrayArg [])])
    ∧ parse "l,d*,p#,s[*],n[#]".toList [] = some (.ok
      [("l".toList, .boolArg false), ("d".toList, .stringArg none),
        ("p".toList, .numberArg none), ("s".toList, .strArrayArg []),
        ("n".toList, .numberArrayArg [])]) :=
  ⟨by decide,
    (claim_C2.1 "l,d*,p#,s[*],n[#]".toList
      [("l".toList, .boolArg false), ("d".toList, .stringArg none),
        ("p".toList, .numberArg none), ("s".toList, .strArrayArg []),
        ("n".toList, .numberArrayArg [])] (by decide)).1⟩

/-- C3 as stated fails: nonempty text before the first `-` forms the first
split segment, which is nonempty and therefore yields a token; under schema
`"l"` the input `"x -l"` errors with `UnknownArg("x")` instead of being
silently ignored. -/
theorem claim_C3_counterexample :
    tokens "x -l".toList = [⟨"x".toList, []⟩, ⟨"l".toList, []⟩]
    ∧ parse "l".toList "x -l".toList = some (.error (.UnknownArg "x".toList)) :=
  ⟨by decide, by decide⟩

/-- C3 (amended): the text before the first `-` is discarded only when it is
empty; a nonempty prefix yields an ordinary token (modifier = its first
space-delimited word) that the binder processes like any other, so it can
raise `UnknownArg` (input `"x -l"`) or even bind a declared flag (input
`"l -l"`). -/
theorem claim_C3 :
    (∀ input : List Char, '-' ∉ input →
      tokens input = if input.isEmpty then [] else [mkToken input])
    ∧ (∀ pre rest : List Char, '-' ∉ pre →
      tokens (pre ++ '-' :: rest) =
        (if pre.isEmpty then [] else [mkToken pre]) ++ tokens rest)
    ∧ parse "l".toList "x -l".toList = some (.error (.UnknownArg "x".toList))
    ∧ parse "l".toList "l -l".toList = some (.ok [("l".toList, .boolArg true)]) := by
  refine ⟨?_, ?_, by decide, by decide⟩
  · intro input h
    rw [tokens_eq, splitChar_of_not_mem h]
    cases input with
    | nil => rfl
    | cons c cs => simp
  · intro pre rest h
    rw [tokens_eq, splitChar_append rest h, tokens_eq]
    cases pre with
    | nil => simp
    | cons c cs => simp [List.filter_cons]

/-- Witness for C3 at concrete inputs. -/
theorem claim_C3_witness :
    ('-' ∉ "x ".toList)
    ∧ tokens ("x ".toList ++ '-' :: "l".toList) =
        (if ("x ".toList : List Char).isEmpty then [] else [mkToken "x ".toList]) ++
          tokens "l".toList :=
  ⟨by decide, claim_C3.2.1 "x ".toList "l".toList (by decide)⟩

/-- C4 as stated fails: a schema token consisting of one multi-byte
character (here the two-byte `é`) has byte length 2, falls into the
multi-byte arm, and the byte slice `&token[..=0]` panics instead of
producing a Boolean holder. -/
theorem claim_C4_counterexample :
    token_to_kv ['é'] = none
    ∧ token_to_kv ['é'] ≠ some (.ok (['é'], .boolArg false)) :=
  ⟨by decide, by decide⟩

/-- C4 (amended): a schema token of one single-byte character compiles to a
Boolean holder with default `false`; a token of two or more bytes whose
first character is single-byte takes its first character as the flag name
and its suffix selects the holder (`*`, `#`, `[*]`, `[#]`, anything else
`UnsupportedArgType`); but when the first character is multi-byte the byte
slicing panics, so compilation is total only over tokens with a single-byte
first character. -/
theorem claim_C4 :
    (∀ c : Char, c.utf8Size = 1 →
      token_to_kv [c] = some (.ok ([c], .boolArg false)))
    ∧ (∀ (c : Char) (rest : List Char), c.utf8Size = 1 → rest ≠ [] →
      token_to_kv (c :: rest) = some
        (if rest = ['*'] then .ok ([c], .stringArg none)
        else if rest = ['#'] then .ok ([c], .numberArg none)
        else if rest = ['[', '*', ']'] then .ok ([c], .strArrayArg [])
        else if rest = ['[', '#', ']'] then .ok ([c], .numberArrayArg [])
        else .error (.UnsupportedArgType rest)))
    ∧ (∀ (c : Char) (rest : List Char), c.utf8Size ≠ 1 →
      token_to_kv (c :: rest) = none) := by
  refine ⟨?_, ?_, ?_⟩
  · intro c h
    have h1 : utf8Len [c] = 1 := by simp [utf8Len, h]
    simp [token_to_kv, h1]
  · intro c rest h hrest
    have hpos : 0 < utf8Len rest := utf8Len_pos_of_ne_nil hrest
    have h0 : ¬utf8Len (c :: rest) = 0 := by
      rw [utf8Len_cons, h]
      omega
    have h1 : ¬utf8Len (c :: rest) = 1 := by
      rw [utf8Len_cons, h]
      omega
    simp only [token_to_kv, if_neg h0, if_neg h1]
    simp [h]
  · intro c rest h
    have hcpos := char_utf8Size_pos c
    have h0 : ¬utf8Len (c :: rest) = 0 := by
      rw [utf8Len_cons]
      omega
    have h1 : ¬utf8Len (c :: rest) = 1 := by
      rw [utf8Len_cons]
      omega
    simp only [token_to_kv, if_neg h0, if_neg h1]
    simp [h]

/-- Witness for C4 at concrete tokens. -/
theorem claim_C4_witness :
    ('a'.utf8Size = 1 ∧ token_to_kv ['a'] = some (.ok (['a'], .boolArg false)))
    ∧ ('p'.utf8Size = 1 ∧ (['*'] : List Char) ≠ []
        ∧ token_to_kv ['p', '*'] = some (.ok (['p'], .stringArg none)))
    ∧ ('é'.utf8Size ≠ 1 ∧ token_to_kv ['é', '*'] = none) := by
  refine ⟨⟨by decide, claim_C4.1 'a' (by decide)⟩, ⟨by decide, by decide, ?_⟩,
    ⟨by decide, claim_C4.2.2 'é' ['*'] (by decide)⟩⟩
  rw [claim_C4.2.1 'p' ['*'] (by decide) (by decide)]
  decide

/-- C9 as stated fails in its example: under schema `"p#"` the input
`"-p -5"` is split at the `-` of `-5`, so the `p` token receives no values
and `parse` stops with `NumberFormatErr("")` — not with
`UnknownArg("5")` as claimed. -/
theorem claim_C9_counterexample :
    parse "p#".toList "-p -5".toList = some (.error (.NumberFormatErr []))
    ∧ parse "p#".toList "-p -5".toList ≠ some (.error (.UnknownArg "5".toList)) :=
  ⟨by decide, by decide⟩

/-- C9 (amended): no token's modifier or value contains `-` (the split
consumes the delimiter), a dash-free string never parses to a negative
integer, and hence every mapping `parse` returns holds only nonnegative
numbers in its Number and Number-Array holders; for `"-p -5"` the tokenizer
does yield a second token with modifier `"5"`, but `parse` already fails on
the first token with `NumberFormatErr("")` since `p` receives no values. -/
theorem claim_C9 :
    (∀ (input : List Char) (t : Token), t ∈ tokens input →
      '-' ∉ t.modifier ∧ ∀ v ∈ t.values, '-' ∉ v)
    ∧ (∀ (s : List Char) (n : Int), '-' ∉ s → parseIntCore s = some n → 0 ≤ n)
    ∧ (∀ (schema input : List Char) (m : ArgMap),
      parse schema input = some (.ok m) →
      ∀ k h, (k, h) ∈ m → nonnegHolder h)
    ∧ tokens "-p -5".toList = [⟨"p".toList, []⟩, ⟨"5".toList, []⟩]
    ∧ parse "p#".toList "-p -5".toList = some (.error (.NumberFormatErr [])) := by
  refine ⟨fun input t ht => tokens_dashfree ht,
    fun s n h hp => parseIntCore_nonneg h hp, ?_, by decide, by decide⟩
  intro schema input m hp
  unfold parse at hp
  rcases hc : compileSchema schema with _ | r
  · rw [hc] at hp
    simp at hp
  · rw [hc] at hp
    cases r with
    | error e => simp at hp
    | ok m0 =>
      have hb : bindTokens m0 (tokens input) = .ok m := by
        simpa using hp
      have hm0 : ∀ k h, (k, h) ∈ m0 → nonnegHolder h := by
        intro k h hmem
        have hd := compileSchema_holders isDefaultHolder
          (fun t k h ht => token_to_kv_ok_default ht) hc k h hmem
        cases h with
        | boolArg b => trivial
        | stringArg v => trivial
        | numberArg v =>
          have hv : v = none := hd
          subst hv
          intro n hn
          exact absurd hn (by simp)
        | strArrayArg vs => trivial
        | numberArrayArg vs =>
          have hv : vs = [] := hd
          subst hv
          intro n hn
          exact absurd hn (by simp)
      exact bindTokens_nonneg (tokens input) m0 m
        (fun t ht => (tokens_dashfree ht).2) hm0 hb

/-- Witness for C9 at a concrete successful parse. -/
theorem claim_C9_witness :
    parse "p#".toList "-p 8080".toList =
      some (.ok [("p".toList, .numberArg (some 8080))])
    ∧ nonnegHolder (ArgHolder.numberArg (some 8080)) :=
  ⟨by decide,
    claim_C9.2.2.1 "p#".toList "-p 8080".toList
      [("p".toList, .numberArg (some 8080))] (by decide)
      "p".toList (.numberArg (some 8080)) (by decide)⟩


end ArgsKata
